import Mathlib

/-!
Verification of the AuthorProfileMCP aggregation engine (`search.py`, `server.py`).

Python strings are modelled as Lean `String` (a wrapper around `List Char`);
Python dicts that the code iterates in insertion order are modelled as
insertion-ordered association lists; `time.time()` values are modelled as `ℚ`.
-/

namespace AuthorProfile

/-! ### Python string primitives used by `search.py` -/

/-- Model of Python `str.lower` on a single character (ASCII letters; the
source only ever lowercases author names, titles and venues). -/
def pyLower (c : Char) : Char :=
  if 65 ≤ c.toNat ∧ c.toNat ≤ 90 then Char.ofNat (c.toNat + 32) else c

/-- The whitespace characters Python `str.split()` splits on
(space, tab, newline, carriage return, vertical tab, form feed). -/
def isPySpace (c : Char) : Bool :=
  c.toNat = 32 || c.toNat = 9 || c.toNat = 10 || c.toNat = 13 || c.toNat = 11 || c.toNat = 12

/-- Helper for `words`: returns the current (leftmost, still growing) word and
the list of completed words to its right. -/
def wordsCore : List Char → List Char × List (List Char)
  | [] => ([], [])
  | c :: cs =>
    if isPySpace c then
      ([], if (wordsCore cs).1.isEmpty then (wordsCore cs).2
           else (wordsCore cs).1 :: (wordsCore cs).2)
    else (c :: (wordsCore cs).1, (wordsCore cs).2)

/-- Model of Python `str.split()` (no argument): maximal runs of
non-whitespace characters, in order; empty runs are dropped. -/
def words (l : List Char) : List (List Char) :=
  if (wordsCore l).1.isEmpty then (wordsCore l).2
  else (wordsCore l).1 :: (wordsCore l).2

/-- Model of Python `" ".join(ws)`. -/
def joinWords : List (List Char) → List Char
  | [] => []
  | [w] => w
  | w :: ws => w ++ ' ' :: joinWords ws

/-- `AuthorSearchEngine._normalize_author_name`:
`return ' '.join(name.lower().split())`. -/
def normalize_author_name (s : String) : String :=
  String.mk (joinWords (words (s.data.map pyLower)))

example : normalize_author_name "Jane  Doe" = "jane doe" := by decide
example : normalize_author_name "  a B\tc " = "a b c" := by decide

/-! ### Lemmas about the string primitives -/

theorem toNat_ofNat_of_valid (n : Nat) (h : n.isValidChar) : (Char.ofNat n).toNat = n := by
  simp [Char.ofNat, dif_pos h, Char.ofNatAux, Char.toNat, UInt32.toNat]

theorem pyLower_idem (c : Char) : pyLower (pyLower c) = pyLower c := by
  unfold pyLower
  by_cases h : 65 ≤ c.toNat ∧ c.toNat ≤ 90
  · rw [if_pos h]
    have ht : (Char.ofNat (c.toNat + 32)).toNat = c.toNat + 32 :=
      toNat_ofNat_of_valid _ (Or.inl (by omega))
    rw [if_neg (by omega)]
  · rw [if_neg h, if_neg h]

theorem pyLower_space (c : Char) (h : isPySpace c = true) : pyLower c = c := by
  simp only [isPySpace, Bool.or_eq_true, decide_eq_true_eq] at h
  have h2 : ¬ (65 ≤ c.toNat ∧ c.toNat ≤ 90) := by omega
  simp [pyLower, h2]

theorem isPySpace_pyLower (c : Char) : isPySpace (pyLower c) = isPySpace c := by
  unfold pyLower
  by_cases h : 65 ≤ c.toNat ∧ c.toNat ≤ 90
  · rw [if_pos h]
    have ht : (Char.ofNat (c.toNat + 32)).toNat = c.toNat + 32 :=
      toNat_ofNat_of_valid _ (Or.inl (by omega))
    have hl : isPySpace (Char.ofNat (c.toNat + 32)) = false := by
      rw [← Bool.not_eq_true]
      simp only [isPySpace, Bool.or_eq_true, decide_eq_true_eq, ht]
      omega
    have hr : isPySpace c = false := by
      rw [← Bool.not_eq_true]
      simp only [isPySpace, Bool.or_eq_true, decide_eq_true_eq]
      omega
    rw [hl, hr]
  · rw [if_neg h]

/-- Splitting at a whitespace character splits the word list. -/
theorem wordsCore_append_space (c : Char) (hc : isPySpace c = true) :
    ∀ (xs ys : List Char),
      wordsCore (xs ++ c :: ys) = ((wordsCore xs).1, (wordsCore xs).2 ++ words ys) := by
  intro xs ys
  induction xs with
  | nil =>
    rw [List.nil_append]
    conv_lhs => rw [wordsCore]
    rw [if_pos hc, words]
    rcases h1 : (wordsCore ys).1.isEmpty with _ | _ <;> simp [wordsCore, h1]
  | cons x xs ih =>
    rw [List.cons_append, wordsCore, wordsCore, ih]
    by_cases hx : isPySpace x = true
    · rw [if_pos hx, if_pos hx]
      rcases h1 : (wordsCore xs).1.isEmpty with _ | _ <;> simp [h1]
    · rw [if_neg hx, if_neg hx]

theorem words_append_space (c : Char) (hc : isPySpace c = true) (xs ys : List Char) :
    words (xs ++ c :: ys) = words xs ++ words ys := by
  rw [words, words, wordsCore_append_space c hc xs ys]
  rcases h1 : (wordsCore xs).1.isEmpty with _ | _ <;> simp [h1]

theorem words_space_cons (c : Char) (hc : isPySpace c = true) (ys : List Char) :
    words (c :: ys) = words ys := by
  have h := words_append_space c hc [] ys
  rw [List.nil_append] at h
  rw [h]
  rfl

/-- A nonempty, whitespace-free character list is a single word. -/
theorem wordsCore_all_nonspace (w : List Char) (hw : ∀ ch ∈ w, isPySpace ch = false) :
    wordsCore w = (w, []) := by
  induction w with
  | nil => rfl
  | cons x xs ih =>
    have hx : isPySpace x = false := hw x (by simp)
    rw [wordsCore, if_neg (by simp [hx]), ih (fun ch hch => hw ch (by simp [hch]))]

theorem words_single (w : List Char) (hne : w ≠ [])
    (hw : ∀ ch ∈ w, isPySpace ch = false) : words w = [w] := by
  rw [words, wordsCore_all_nonspace w hw]
  cases w with
  | nil => exact absurd rfl hne
  | cons x xs => simp

/-- Every word produced by `words` is nonempty and whitespace-free, and its
characters come from the input. -/
theorem wordsCore_sound (l : List Char) :
    (∀ ch ∈ (wordsCore l).1, isPySpace ch = false ∧ ch ∈ l) ∧
    (∀ w ∈ (wordsCore l).2, w ≠ [] ∧ ∀ ch ∈ w, isPySpace ch = false ∧ ch ∈ l) := by
  induction l with
  | nil => exact ⟨by simp [wordsCore], by simp [wordsCore]⟩
  | cons x xs ih =>
    obtain ⟨ih1, ih2⟩ := ih
    by_cases hx : isPySpace x = true
    · rw [wordsCore, if_pos hx]
      refine ⟨by simp, ?_⟩
      intro w hw
      rcases h1 : (wordsCore xs).1.isEmpty with _ | _
      · rw [h1] at hw
        simp only [Bool.false_eq_true, if_false] at hw
        rcases List.mem_cons.mp hw with h | h
        · subst h
          refine ⟨fun hemp => by rw [hemp] at h1; simp at h1, ?_⟩
          intro ch hc
          exact ⟨(ih1 ch hc).1, by simp [(ih1 ch hc).2]⟩
        · obtain ⟨hne, hch⟩ := ih2 w h
          exact ⟨hne, fun ch hc => ⟨(hch ch hc).1, by simp [(hch ch hc).2]⟩⟩
      · rw [h1] at hw
        simp only [if_true] at hw
        obtain ⟨hne, hch⟩ := ih2 w hw
        exact ⟨hne, fun ch hc => ⟨(hch ch hc).1, by simp [(hch ch hc).2]⟩⟩
    · rw [wordsCore, if_neg hx]
      constructor
      · intro ch hch
        rcases List.mem_cons.mp hch with h | h
        · subst h
          exact ⟨by simpa using hx, by simp⟩
        · exact ⟨(ih1 ch h).1, by simp [(ih1 ch h).2]⟩
      · intro w hw
        obtain ⟨hne, hch⟩ := ih2 w hw
        exact ⟨hne, fun ch hc => ⟨(hch ch hc).1, by simp [(hch ch hc).2]⟩⟩

theorem words_sound (l : List Char) :
    ∀ w ∈ words l, w ≠ [] ∧ ∀ ch ∈ w, isPySpace ch = false ∧ ch ∈ l := by
  intro w hw
  obtain ⟨h1, h2⟩ := wordsCore_sound l
  rw [words] at hw
  rcases he : (wordsCore l).1.isEmpty with _ | _
  · rw [he] at hw
    simp only [Bool.false_eq_true, if_false] at hw
    rcases List.mem_cons.mp hw with h | h
    · subst h
      exact ⟨fun hemp => by rw [hemp] at he; simp at he, h1⟩
    · exact h2 w h
  · rw [he] at hw
    simp only [if_true] at hw
    exact h2 w hw

/-- Joining nonempty whitespace-free words and re-splitting recovers them. -/
theorem words_joinWords (W : List (List Char))
    (h : ∀ w ∈ W, w ≠ [] ∧ ∀ ch ∈ w, isPySpace ch = false) :
    words (joinWords W) = W := by
  induction W with
  | nil => rfl
  | cons w ws ih =>
    cases ws with
    | nil =>
      obtain ⟨hne, hch⟩ := h w (by simp)
      simpa [joinWords] using words_single w hne hch
    | cons w2 ws2 =>
      have hj : joinWords (w :: w2 :: ws2) = w ++ ' ' :: joinWords (w2 :: ws2) := rfl
      rw [hj, words_append_space ' ' (by decide)]
      obtain ⟨hne, hch⟩ := h w (by simp)
      rw [words_single w hne hch, ih (fun u hu => h u (by simp [hu]))]
      rfl

theorem map_self_of_mem {α : Type} (f : α → α) (l : List α) (h : ∀ a ∈ l, f a = a) :
    l.map f = l := by
  induction l with
  | nil => rfl
  | cons x xs ih =>
    rw [List.map_cons, h x (by simp), ih (fun a ha => h a (by simp [ha]))]

theorem map_pyLower_joinWords (W : List (List Char))
    (h : ∀ w ∈ W, ∀ ch ∈ w, pyLower ch = ch) :
    (joinWords W).map pyLower = joinWords W := by
  induction W with
  | nil => rfl
  | cons w ws ih =>
    cases ws with
    | nil =>
      show (joinWords [w]).map pyLower = joinWords [w]
      have : joinWords [w] = w := rfl
      rw [this]
      exact map_self_of_mem pyLower w (h w (by simp))
    | cons w2 ws2 =>
      have hj : joinWords (w :: w2 :: ws2) = w ++ ' ' :: joinWords (w2 :: ws2) := rfl
      rw [hj, List.map_append, List.map_cons]
      rw [ih (fun u hu ch hch => h u (by simp [hu]) ch hch)]
      rw [map_self_of_mem pyLower w (h w (by simp))]
      rw [pyLower_space ' ' (by decide)]

theorem normalize_words_decomp (l1 l2 : List Char) (c : Char) (hc : isPySpace c = true) :
    words ((l1 ++ c :: l2).map pyLower) =
      words (l1.map pyLower) ++ words (l2.map pyLower) := by
  rw [List.map_append, List.map_cons, pyLower_space c hc]
  exact words_append_space c hc _ _

/-- C10: name normalization (`_normalize_author_name`) is idempotent, depends
only on the lowercased character sequence (so case variants normalize
identically), is invariant under duplicating or substituting whitespace
characters inside a whitespace run (so whitespace-run variants normalize
identically), and the spec example "Jane  Doe" / "jane doe" holds. -/
theorem c10_normalize_idempotent_invariant :
    (∀ s : String,
      normalize_author_name (normalize_author_name s) = normalize_author_name s)
    ∧ (∀ s t : String, s.data.map pyLower = t.data.map pyLower →
        normalize_author_name s = normalize_author_name t)
    ∧ (∀ (l1 l2 : List Char) (c d : Char), isPySpace c = true → isPySpace d = true →
        normalize_author_name (String.mk (l1 ++ c :: d :: l2)) =
          normalize_author_name (String.mk (l1 ++ c :: l2)))
    ∧ (∀ (l1 l2 : List Char) (c d : Char), isPySpace c = true → isPySpace d = true →
        normalize_author_name (String.mk (l1 ++ c :: l2)) =
          normalize_author_name (String.mk (l1 ++ d :: l2)))
    ∧ normalize_author_name "Jane  Doe" = normalize_author_name "jane doe" := by
  refine ⟨?_, ?_, ?_, ?_, by decide⟩
  · intro s
    unfold normalize_author_name
    congr 1
    have hWs : ∀ w ∈ words (s.data.map pyLower), w ≠ [] ∧
        ∀ ch ∈ w, isPySpace ch = false := by
      intro w hw
      obtain ⟨hne, hch⟩ := words_sound _ w hw
      exact ⟨hne, fun ch hc => (hch ch hc).1⟩
    have hfix : ∀ w ∈ words (s.data.map pyLower), ∀ ch ∈ w, pyLower ch = ch := by
      intro w hw ch hc
      obtain ⟨hne, hch⟩ := words_sound _ w hw
      obtain ⟨c0, _, hc0⟩ := List.mem_map.mp (hch ch hc).2
      rw [← hc0, pyLower_idem]
    have hdata : (String.mk (joinWords (words (s.data.map pyLower)))).data =
        joinWords (words (s.data.map pyLower)) := rfl
    rw [hdata, map_pyLower_joinWords _ hfix, words_joinWords _ hWs]
  · intro s t h
    unfold normalize_author_name
    rw [h]
  · intro l1 l2 c d hc hd
    unfold normalize_author_name
    congr 1
    have h1 : (String.mk (l1 ++ c :: d :: l2)).data = l1 ++ c :: d :: l2 := rfl
    have h2 : (String.mk (l1 ++ c :: l2)).data = l1 ++ c :: l2 := rfl
    rw [h1, h2]
    have hdec : words ((l1 ++ c :: (d :: l2)).map pyLower) =
        words (l1.map pyLower) ++ words ((d :: l2).map pyLower) :=
      normalize_words_decomp l1 (d :: l2) c hc
    rw [hdec, normalize_words_decomp l1 l2 c hc]
    rw [List.map_cons, pyLower_space d hd, words_space_cons d hd]
  · intro l1 l2 c d hc hd
    unfold normalize_author_name
    congr 1
    have h1 : (String.mk (l1 ++ c :: l2)).data = l1 ++ c :: l2 := rfl
    have h2 : (String.mk (l1 ++ d :: l2)).data = l1 ++ d :: l2 := rfl
    rw [h1, h2, normalize_words_decomp l1 l2 c hc, normalize_words_decomp l1 l2 d hd]

/-- C10 witness: the theorem instantiated at concrete inputs. -/
theorem c10_normalize_witness :
    normalize_author_name (normalize_author_name "Jane  Doe") =
      normalize_author_name "Jane  Doe"
    ∧ normalize_author_name "JANE DOE" = normalize_author_name "jane Doe"
    ∧ normalize_author_name (String.mk (['a'] ++ ' ' :: '\t' :: ['b'])) =
        normalize_author_name (String.mk (['a'] ++ ' ' :: ['b']))
    ∧ normalize_author_name (String.mk (['a'] ++ ' ' :: ['b'])) =
        normalize_author_name (String.mk (['a'] ++ '\t' :: ['b'])) :=
  ⟨c10_normalize_idempotent_invariant.1 "Jane  Doe",
   c10_normalize_idempotent_invariant.2.1 "JANE DOE" "jane Doe" (by decide),
   c10_normalize_idempotent_invariant.2.2.1 ['a'] ['b'] ' ' '\t' (by decide) (by decide),
   c10_normalize_idempotent_invariant.2.2.2.1 ['a'] ['b'] ' ' '\t' (by decide) (by decide)⟩

/-! ### Data model: raw records from the source adapters

`RawRecord` models one item of the list a source adapter returns.  Only the
fields the Fusion Engine reads are represented; each is optional, mirroring
Python dict key presence (`'papers' in author_data` etc.). -/

/-- One element of a paper's `authors` list in a Semantic Scholar record. -/
structure AuthorRef where
  name : Option String
  authorId : Option String
deriving Repr, DecidableEq

/-- A paper inside a record: `title`, `venue`, `authors`, each optional. -/
structure Paper where
  title : Option String
  venue : Option String
  authors : Option (List AuthorRef)
deriving Repr, DecidableEq

/-- An affiliation entry: `aff.get('name', '')`. -/
structure Affiliation where
  name : Option String
deriving Repr, DecidableEq

/-- A raw author record as returned by one adapter. -/
structure RawRecord where
  name : Option String
  affiliations : Option (List Affiliation)
  papers : Option (List Paper)
deriving Repr, DecidableEq

/-- One value of the `coauthors` dict built by
`_extract_coauthors_from_semantic_scholar`. -/
structure CoauthorEntry where
  name : String
  id : Option String
  collaborations : Nat
  source : String
deriving Repr, DecidableEq

/-! ### `_extract_coauthors_from_semantic_scholar` (src/search.py lines 181-200) -/

/-- Python dict membership `key in coauthors` on the insertion-ordered model. -/
def containsKey (m : List (String × CoauthorEntry)) (k : String) : Bool :=
  m.any (fun p => p.1 = k)

/-- `coauthors[k]['collaborations'] += d` on the insertion-ordered model
(keys are unique, so bumping the first occurrence is dict update). -/
def bumpKey : List (String × CoauthorEntry) → String → Nat → List (String × CoauthorEntry)
  | [], _, _ => []
  | q :: m, k, d =>
    if q.1 = k then (q.1, { q.2 with collaborations := q.2.collaborations + d }) :: m
    else q :: bumpKey m k d

/-- Processing one entry of a paper's `authors` list: skip when `name` is
absent or empty (`author.get('name')` falsy), else insert the key with
collaborations 0 when new, then increment it. -/
def extractMention (m : List (String × CoauthorEntry)) (a : AuthorRef) :
    List (String × CoauthorEntry) :=
  match a.name with
  | none => m
  | some nm =>
    if nm = "" then m
    else
      bumpKey
        (if containsKey m (normalize_author_name nm) then m
         else m ++ [(normalize_author_name nm,
                     ⟨nm, a.authorId, 0, "semantic_scholar"⟩)])
        (normalize_author_name nm) 1

/-- The `coauthors` dict after the nested loops over papers and authors. -/
def extractAssoc (item : RawRecord) : List (String × CoauthorEntry) :=
  (item.papers.getD []).foldl
    (fun m p => (p.authors.getD []).foldl extractMention m) []

/-- `_extract_coauthors_from_semantic_scholar`: `list(coauthors.values())`. -/
def extract_coauthors_from_semantic_scholar (item : RawRecord) : List CoauthorEntry :=
  (extractAssoc item).map Prod.snd

/-! ### `_merge_author_data` (src/search.py lines 210-237) -/

/-- Python `set.add` modelled as append-if-absent on an ordered list. -/
def insertNew (l : List String) (s : String) : List String :=
  if l.contains s then l else l ++ [s]

/-- The `merged` accumulator of `_merge_author_data`.  The `papers` list and
`keywords` counter are never written by the source, so they are omitted. -/
structure MergedProfile where
  names : List String
  institutions : List String
  coauthors : List (String × CoauthorEntry)
deriving Repr, DecidableEq

/-- Upserting one extracted co-author into `merged['coauthors']`: the key is
the entry's display name `coauthor['name']`, not its normalized name. -/
def mergeCoauthor (m : List (String × CoauthorEntry)) (c : CoauthorEntry) :
    List (String × CoauthorEntry) :=
  if containsKey m c.name then bumpKey m c.name c.collaborations
  else m ++ [(c.name, c)]

/-- Folding one record of a `semantic_scholar` source into the accumulator. -/
def mergeItem (acc : MergedProfile) (item : RawRecord) : MergedProfile :=
  { names :=
      match item.name with
      | some n => insertNew acc.names n
      | none => acc.names
    institutions :=
      match item.affiliations with
      | some affs => affs.foldl (fun l a => insertNew l (a.name.getD "")) acc.institutions
      | none => acc.institutions
    coauthors :=
      (extract_coauthors_from_semantic_scholar item).foldl mergeCoauthor acc.coauthors }

/-- `_merge_author_data`: records of sources other than `semantic_scholar`
contribute nothing. -/
def merge_author_data (data_sources : List (String × List RawRecord)) : MergedProfile :=
  data_sources.foldl
    (fun acc src =>
      if src.1 = "semantic_scholar" then src.2.foldl mergeItem acc else acc)
    ⟨[], [], []⟩

/-! ### Collaboration-count accounting for the extraction and the merge -/

/-- Total `collaborations` stored in the dict under keys satisfying `p`. -/
def keyWeight (p : String → Bool) (m : List (String × CoauthorEntry)) : Nat :=
  (m.map (fun q => if p q.1 then q.2.collaborations else 0)).sum

/-- Total `collaborations` carried by extracted entries whose dict key
(`coauthor['name']`, the display name) satisfies `p`. -/
def listWeight (p : String → Bool) (cs : List CoauthorEntry) : Nat :=
  (cs.map (fun c => if p c.name then c.collaborations else 0)).sum

/-- The normalized key a mention contributes to, when it is counted at all. -/
def mentionKey (a : AuthorRef) : Option String :=
  match a.name with
  | none => none
  | some nm => if nm = "" then none else some (normalize_author_name nm)

/-- All counted mentions of one record, as their normalized keys, in order. -/
def mentionKeys (item : RawRecord) : List String :=
  ((item.papers.getD []).map (fun p => (p.authors.getD []).filterMap mentionKey)).flatten

/-- Per-item contribution of a semantic-scholar source list to the merge. -/
def itemsWeight (p : String → Bool) (items : List RawRecord) : Nat :=
  (items.map (fun it => listWeight p (extract_coauthors_from_semantic_scholar it))).sum

/-- Contribution of each tagged source list to the merged collaboration counts. -/
def sourcesWeight (p : String → Bool) (srcs : List (String × List RawRecord)) : Nat :=
  (srcs.map (fun src => if src.1 = "semantic_scholar" then itemsWeight p src.2 else 0)).sum

theorem keyWeight_append (p : String → Bool) (m1 m2 : List (String × CoauthorEntry)) :
    keyWeight p (m1 ++ m2) = keyWeight p m1 + keyWeight p m2 := by
  simp [keyWeight]

theorem keyWeight_bumpKey (p : String → Bool) (m : List (String × CoauthorEntry))
    (k : String) (d : Nat) :
    keyWeight p (bumpKey m k d) =
      keyWeight p m + (if containsKey m k && p k then d else 0) := by
  induction m with
  | nil => simp [bumpKey, containsKey, keyWeight]
  | cons q m ih =>
    by_cases hq : q.1 = k
    · rw [bumpKey, if_pos hq]
      have hck : containsKey (q :: m) k = true := by simp [containsKey, hq]
      rw [hck]
      by_cases hp : p k = true
      · simp [keyWeight, hq, hp]
        omega
      · have hp2 : p k = false := by simpa using hp
        simp [keyWeight, hq, hp2]
    · rw [bumpKey, if_neg hq]
      have hck : containsKey (q :: m) k = containsKey m k := by
        simp [containsKey, hq]
      rw [hck]
      simp only [keyWeight, List.map_cons, List.sum_cons] at ih ⊢
      rw [ih]
      omega

theorem containsKey_append_single (m : List (String × CoauthorEntry))
    (k : String) (e : CoauthorEntry) : containsKey (m ++ [(k, e)]) k = true := by
  simp [containsKey]

theorem keyWeight_extractMention (p : String → Bool)
    (m : List (String × CoauthorEntry)) (a : AuthorRef) :
    keyWeight p (extractMention m a) =
      keyWeight p m +
        (match mentionKey a with
         | some k => if p k then 1 else 0
         | none => 0) := by
  match ha : a.name with
  | none => simp [extractMention, mentionKey, ha]
  | some nm =>
    by_cases hnm : nm = ""
    · simp [extractMention, mentionKey, ha, hnm]
    · simp only [extractMention, ha, mentionKey, if_neg hnm]
      by_cases hck : containsKey m (normalize_author_name nm) = true
      · rw [if_pos hck, keyWeight_bumpKey, hck]
        simp
      · rw [if_neg hck, keyWeight_bumpKey, containsKey_append_single, keyWeight_append]
        simp [keyWeight]

theorem keyWeight_foldl_extractMention (p : String → Bool)
    (refs : List AuthorRef) (m : List (String × CoauthorEntry)) :
    keyWeight p (refs.foldl extractMention m) =
      keyWeight p m + ((refs.filterMap mentionKey).filter p).length := by
  induction refs generalizing m with
  | nil => simp
  | cons a refs ih =>
    rw [List.foldl_cons, ih, keyWeight_extractMention]
    rw [List.filterMap_cons]
    match h : mentionKey a with
    | none => simp
    | some k =>
      by_cases hp : p k = true
      · simp [List.filter_cons, hp]
        omega
      · have hp2 : p k = false := by simpa using hp
        simp [List.filter_cons, hp2]

theorem keyWeight_extractAssoc (p : String → Bool) (item : RawRecord) :
    keyWeight p (extractAssoc item) = ((mentionKeys item).filter p).length := by
  rw [extractAssoc, mentionKeys]
  generalize item.papers.getD [] = papers
  induction papers using List.reverseRecOn with
  | nil => simp [keyWeight]
  | append_singleton ps q ih =>
    rw [List.foldl_append, List.foldl_cons, List.foldl_nil,
        keyWeight_foldl_extractMention, ih]
    simp

theorem keys_bumpKey (m : List (String × CoauthorEntry)) (k : String) (d : Nat) :
    (bumpKey m k d).map Prod.fst = m.map Prod.fst := by
  induction m with
  | nil => rfl
  | cons q m ih =>
    by_cases hq : q.1 = k
    · rw [bumpKey, if_pos hq]
      simp
    · rw [bumpKey, if_neg hq]
      simp [ih]

theorem containsKey_iff_mem_keys (m : List (String × CoauthorEntry)) (k : String) :
    containsKey m k = true ↔ k ∈ m.map Prod.fst := by
  rw [containsKey, List.any_eq_true]
  constructor
  · rintro ⟨q, hq, he⟩
    exact List.mem_map.mpr ⟨q, hq, by simpa using he⟩
  · intro hmem
    obtain ⟨q, hq, he⟩ := List.mem_map.mp hmem
    exact ⟨q, hq, by simpa using he⟩

theorem nodup_keys_extractMention (m : List (String × CoauthorEntry)) (a : AuthorRef)
    (h : (m.map Prod.fst).Nodup) : ((extractMention m a).map Prod.fst).Nodup := by
  match ha : a.name with
  | none => simpa [extractMention, ha] using h
  | some nm =>
    by_cases hnm : nm = ""
    · simpa [extractMention, ha, hnm] using h
    · simp only [extractMention, ha, if_neg hnm]
      by_cases hck : containsKey m (normalize_author_name nm) = true
      · rw [if_pos hck, keys_bumpKey]
        exact h
      · rw [if_neg hck, keys_bumpKey]
        have hnotin : normalize_author_name nm ∉ m.map Prod.fst := by
          intro hmem
          exact hck ((containsKey_iff_mem_keys m _).mpr hmem)
        rw [List.map_append]
        rw [List.nodup_append]
        refine ⟨h, List.nodup_singleton _, ?_⟩
        intro x hx hx2
        simp only [List.map_cons, List.map_nil, List.mem_singleton] at hx2
        rw [hx2] at hx
        exact hnotin hx

theorem nodup_keys_foldl_extractMention (refs : List AuthorRef)
    (m : List (String × CoauthorEntry)) (h : (m.map Prod.fst).Nodup) :
    (((refs.foldl extractMention m)).map Prod.fst).Nodup := by
  induction refs generalizing m with
  | nil => exact h
  | cons a refs ih => exact ih _ (nodup_keys_extractMention m a h)

/-- The extraction dict of a single record has pairwise-distinct (normalized)
keys: within one record, all mentions of one normalized name share one entry. -/
theorem nodup_keys_extractAssoc (item : RawRecord) :
    ((extractAssoc item).map Prod.fst).Nodup := by
  rw [extractAssoc]
  generalize item.papers.getD [] = papers
  induction papers using List.reverseRecOn with
  | nil => simp
  | append_singleton ps q ih =>
    rw [List.foldl_append, List.foldl_cons, List.foldl_nil]
    exact nodup_keys_foldl_extractMention _ _ ih

theorem keyWeight_mergeCoauthor (p : String → Bool)
    (m : List (String × CoauthorEntry)) (c : CoauthorEntry) :
    keyWeight p (mergeCoauthor m c) =
      keyWeight p m + (if p c.name then c.collaborations else 0) := by
  rw [mergeCoauthor]
  by_cases hck : containsKey m c.name = true
  · rw [if_pos hck, keyWeight_bumpKey, hck]
    simp
  · rw [if_neg hck, keyWeight_append]
    simp [keyWeight]

theorem keyWeight_foldl_mergeCoauthor (p : String → Bool)
    (cs : List CoauthorEntry) (m : List (String × CoauthorEntry)) :
    keyWeight p (cs.foldl mergeCoauthor m) = keyWeight p m + listWeight p cs := by
  induction cs generalizing m with
  | nil => simp [listWeight]
  | cons c cs ih =>
    rw [List.foldl_cons, ih, keyWeight_mergeCoauthor]
    simp only [listWeight, List.map_cons, List.sum_cons]
    omega

theorem keyWeight_foldl_mergeItem (p : String → Bool)
    (items : List RawRecord) (acc : MergedProfile) :
    keyWeight p ((items.foldl mergeItem acc).coauthors) =
      keyWeight p acc.coauthors + itemsWeight p items := by
  induction items generalizing acc with
  | nil => simp [itemsWeight]
  | cons it items ih =>
    rw [List.foldl_cons, ih]
    have hco : (mergeItem acc it).coauthors =
        (extract_coauthors_from_semantic_scholar it).foldl mergeCoauthor acc.coauthors := rfl
    rw [hco, keyWeight_foldl_mergeCoauthor]
    simp only [itemsWeight, List.map_cons, List.sum_cons]
    omega

theorem keyWeight_foldl_sources (p : String → Bool)
    (srcs : List (String × List RawRecord)) (acc : MergedProfile) :
    keyWeight p ((srcs.foldl
        (fun acc src =>
          if src.1 = "semantic_scholar" then src.2.foldl mergeItem acc else acc)
        acc).coauthors) =
      keyWeight p acc.coauthors + sourcesWeight p srcs := by
  induction srcs generalizing acc with
  | nil => simp [sourcesWeight]
  | cons src srcs ih =>
    rw [List.foldl_cons, ih]
    simp only [sourcesWeight, List.map_cons, List.sum_cons]
    by_cases hs : src.1 = "semantic_scholar"
    · rw [if_pos hs, if_pos hs, keyWeight_foldl_mergeItem]
      omega
    · rw [if_neg hs, if_neg hs]
      omega

/-- The merged collaboration count under keys satisfying `p` is the sum of the
per-record extraction weights of the semantic-scholar sources. -/
theorem keyWeight_merge_author_data (p : String → Bool)
    (srcs : List (String × List RawRecord)) :
    keyWeight p (merge_author_data srcs).coauthors = sourcesWeight p srcs := by
  rw [merge_author_data, keyWeight_foldl_sources]
  simp [keyWeight]

/-- C9: co-author merge is commutative in collaboration counts.  For any two
source-tagged record lists `A` and `B`, merging `[A, B]` and `[B, A]` gives
the same total collaboration count under every merged key, and the same total
collaboration count attributed to every normalized co-author name. -/
theorem c9_merge_commutative_counts :
    ∀ (A B : String × List RawRecord) (n : String),
      keyWeight (fun k => decide (k = n)) (merge_author_data [A, B]).coauthors =
        keyWeight (fun k => decide (k = n)) (merge_author_data [B, A]).coauthors
      ∧ keyWeight (fun k => decide (normalize_author_name k = n))
            (merge_author_data [A, B]).coauthors =
          keyWeight (fun k => decide (normalize_author_name k = n))
            (merge_author_data [B, A]).coauthors := by
  intro A B n
  constructor <;>
  · rw [keyWeight_merge_author_data, keyWeight_merge_author_data]
    simp only [sourcesWeight, List.map_cons, List.map_nil, List.sum_cons, List.sum_nil]
    omega

/-- Record with a single paper naming the given co-author mentions. -/
def recordWithMentions (nms : List String) : RawRecord :=
  ⟨none, none, some [⟨none, none, some (nms.map (fun nm => ⟨some nm, none⟩))⟩]⟩

/-- C1 counterexample: merging two semantic-scholar records whose co-author
mentions "Jane Doe" and "jane doe" normalize to the same name yields TWO
merged entries (the cross-record fold keys on the display name
`coauthor['name']`, not the normalized name), each with collaborationCount 1,
refuting "exactly one entry per normalized name whose collaborationCount
equals the total number of mentions normalizing to that name" (which would
demand one entry with count 2). -/
theorem c1_counterexample :
    ((merge_author_data
        [("semantic_scholar",
          [recordWithMentions ["Jane Doe"], recordWithMentions ["jane doe"]])]).coauthors.map
      (fun q => (q.1, q.2.collaborations, normalize_author_name q.2.name))) =
      [("Jane Doe", 1, "jane doe"), ("jane doe", 1, "jane doe")]
    ∧ ¬ (((merge_author_data
        [("semantic_scholar",
          [recordWithMentions ["Jane Doe"], recordWithMentions ["jane doe"]])]).coauthors.map
      (fun q => normalize_author_name q.2.name)).Nodup) := by
  exact ⟨by decide, by decide⟩

/-- C1 (amended): within a single record the extraction folds mentions by
normalized name — its dict keys are pairwise distinct and the count stored
under each normalized key equals the number of that record's mentions
normalizing to it; across records and sources the merge folds entries by
display name — the merged count under each key is the sum over all
semantic-scholar records of that record's extracted weight for that key. -/
theorem c1_amended_fold_counts :
    (∀ item : RawRecord, ((extractAssoc item).map Prod.fst).Nodup)
    ∧ (∀ (item : RawRecord) (key : String),
        keyWeight (fun k => decide (k = key)) (extractAssoc item) =
          ((mentionKeys item).filter (fun k => decide (k = key))).length)
    ∧ (∀ (srcs : List (String × List RawRecord)) (key : String),
        keyWeight (fun k => decide (k = key)) (merge_author_data srcs).coauthors =
          sourcesWeight (fun k => decide (k = key)) srcs) :=
  ⟨nodup_keys_extractAssoc,
   fun item key => keyWeight_extractAssoc (fun k => decide (k = key)) item,
   fun srcs key => keyWeight_merge_author_data (fun k => decide (k = key)) srcs⟩

example :
    ((merge_author_data
        [("semantic_scholar", [recordWithMentions ["John Smith", "John Smith", "Amy Lee"]])]).coauthors.map
      (fun q => (q.2.name, q.2.collaborations))) =
      [("John Smith", 2), ("Amy Lee", 1)] := by decide

/-! ### `_rate_limit_check` (src/search.py lines 63-74)

Modelled as a pure state transition.  `time.time()` values are rationals; a
call arriving at `now` returns the updated per-source state and the instant
at which the call proceeds (`now` plus the `asyncio.sleep` duration). -/

/-- Per-source entry of `self.rate_limits`. -/
structure RateLimitEntry where
  calls : Nat
  reset_time : ℚ
deriving Repr, DecidableEq

/-- One invocation of `_rate_limit_check`: window-expiry reset, capped sleep
when at or over `max_calls`, then unconditional increment. -/
def rate_limit_check (st : RateLimitEntry) (now : ℚ) (max_calls : Nat) (window : ℚ) :
    RateLimitEntry × ℚ :=
  let st1 := if now - st.reset_time > window then ⟨0, now⟩ else st
  let delay : ℚ :=
    if max_calls ≤ st1.calls then
      if 0 < window - (now - st1.reset_time) then min (window - (now - st1.reset_time)) 60
      else 0
    else 0
  (⟨st1.calls + 1, st1.reset_time⟩, now + delay)

/-- A sequential run: each element of `arrivals` is the time a caller enters
`_rate_limit_check`; the result lists the instants the calls proceed. -/
def rate_limit_run (max_calls : Nat) (window : ℚ) :
    RateLimitEntry → List ℚ → List ℚ
  | _, [] => []
  | st, t :: ts =>
    (rate_limit_check st t max_calls window).2 ::
      rate_limit_run max_calls window (rate_limit_check st t max_calls window).1 ts

/-- C2 counterexample: with max_calls = 1 and window = 3600 s, a source whose
state was initialised at time 0 admits the call sequence arriving at times
0 and 1 (each arrival after the previous call proceeded); the calls proceed at
times 0 and 61 — two calls inside the rolling window [0, 3600) although
max_calls is 1.  The limiter only sleeps min(remaining, 60) and never rejects,
so the rolling-window cap is violated. -/
theorem c2_counterexample :
    rate_limit_run 1 3600 ⟨0, 0⟩ [0, 1] = [0, 61]
    ∧ ((rate_limit_run 1 3600 ⟨0, 0⟩ [0, 1]).filter
        (fun p => decide (0 ≤ p) && decide (p < 3600))).length = 2
    ∧ 1 < 2 := by
  have h : rate_limit_run 1 3600 ⟨0, 0⟩ [0, 1] = [0, 61] := by
    norm_num [rate_limit_run, rate_limit_check]
  refine ⟨h, ?_, by decide⟩
  rw [h]
  norm_num [List.filter]

/-- C2 (amended): the rate limiter does not enforce a hard rolling-window
cap.  What holds of `_rate_limit_check`: it never drops or rejects a call —
every call proceeds after a delay of at most 60 seconds; the per-source call
count is always incremented by exactly one (after a reset to 0 when the
window has expired); a call under the cap inside an unexpired window proceeds
immediately; and a call at or over the cap inside an unexpired window with
time remaining is delayed by exactly min(remaining window time, 60 s). -/
theorem c2_amended_delay_only :
    ∀ (st : RateLimitEntry) (now : ℚ) (max_calls : Nat) (window : ℚ),
      ((rate_limit_check st now max_calls window).1).calls =
        (if now - st.reset_time > window then 0 else st.calls) + 1
      ∧ now ≤ (rate_limit_check st now max_calls window).2
      ∧ (rate_limit_check st now max_calls window).2 ≤ now + 60
      ∧ (¬ now - st.reset_time > window → st.calls < max_calls →
          (rate_limit_check st now max_calls window).2 = now)
      ∧ (¬ now - st.reset_time > window → max_calls ≤ st.calls →
          0 < window - (now - st.reset_time) →
          (rate_limit_check st now max_calls window).2 =
            now + min (window - (now - st.reset_time)) 60) := by
  intro st now max_calls window
  simp only [rate_limit_check]
  by_cases hw : now - st.reset_time > window
  · rw [if_pos hw]
    refine ⟨by rw [if_pos hw], ?_, ?_, fun h _ => absurd hw h, fun h _ _ => absurd hw h⟩
    · by_cases hc : max_calls ≤ 0
      · rw [if_pos hc]
        by_cases hp : 0 < window - (now - now)
        · rw [if_pos hp]
          have : (0 : ℚ) ≤ min (window - (now - now)) 60 :=
            le_min (le_of_lt hp) (by norm_num)
          linarith
        · rw [if_neg hp]
          linarith
      · rw [if_neg hc]
        linarith
    · by_cases hc : max_calls ≤ 0
      · rw [if_pos hc]
        by_cases hp : 0 < window - (now - now)
        · rw [if_pos hp]
          have : min (window - (now - now)) 60 ≤ 60 := min_le_right _ _
          linarith
        · rw [if_neg hp]
          linarith
      · rw [if_neg hc]
        linarith
  · rw [if_neg hw]
    refine ⟨by rw [if_neg hw], ?_, ?_, ?_, ?_⟩
    · by_cases hc : max_calls ≤ st.calls
      · rw [if_pos hc]
        by_cases hp : 0 < window - (now - st.reset_time)
        · rw [if_pos hp]
          have : (0 : ℚ) ≤ min (window - (now - st.reset_time)) 60 :=
            le_min (le_of_lt hp) (by norm_num)
          linarith
        · rw [if_neg hp]
          linarith
      · rw [if_neg hc]
        linarith
    · by_cases hc : max_calls ≤ st.calls
      · rw [if_pos hc]
        by_cases hp : 0 < window - (now - st.reset_time)
        · rw [if_pos hp]
          have : min (window - (now - st.reset_time)) 60 ≤ 60 := min_le_right _ _
          linarith
        · rw [if_neg hp]
          linarith
      · rw [if_neg hc]
        linarith
    · intro _ hlt
      rw [if_neg (by omega)]
      ring
    · intro _ hge hp
      rw [if_pos hge, if_pos hp]

/-- C2 witness: the amended theorem instantiated at concrete inputs,
discharging its hypotheses. -/
theorem c2_amended_delay_only_witness :
    (rate_limit_check ⟨1, 0⟩ 10 1 3600).2 = 10 + min (3600 - (10 - 0)) 60
    ∧ (rate_limit_check ⟨0, 0⟩ 10 1 3600).2 = 10 :=
  ⟨(c2_amended_delay_only ⟨1, 0⟩ 10 1 3600).2.2.2.2
      (by norm_num) (by norm_num) (by norm_num),
   (c2_amended_delay_only ⟨0, 0⟩ 10 1 3600).2.2.2.1
      (by norm_num) (by norm_num)⟩

/-! ### `get_author_keywords` (src/search.py lines 277-306) -/

/-- The fixed stopword list of `get_author_keywords`. -/
def stopWords : List String := ["the", "and", "for", "with", "from", "that", "this"]

/-- Python `s.lower().split()`. -/
def pyLowerSplit (s : String) : List String :=
  (words (s.data.map pyLower)).map String.mk

/-- `collections.Counter.update` with a single word: increment an existing
key or append a new key with count 1 (dicts preserve insertion order). -/
def counterUpdate : List (String × Nat) → String → List (String × Nat)
  | [], w => [(w, 1)]
  | q :: m, w => if q.1 = w then (q.1, q.2 + 1) :: m else q :: counterUpdate m w

/-- `title.lower().split() + venue.lower().split()` for one paper. -/
def paperTokens (p : Paper) : List String :=
  pyLowerSplit (p.title.getD "") ++ pyLowerSplit (p.venue.getD "")

/-- `[w for w in words if len(w) > 3 and w not in stopwords]`. -/
def keywordFilter (ws : List String) : List String :=
  ws.filter (fun w => 3 < w.length && !(stopWords.contains w))

/-- Sort key of `Counter.most_common`: non-increasing count, stable. -/
def freqGe (a b : String × Nat) : Prop := b.2 ≤ a.2

instance : DecidableRel freqGe := fun a b => Nat.decLe b.2 a.2

instance : IsTotal (String × Nat) freqGe :=
  ⟨fun a b => (Nat.le_total b.2 a.2).elim Or.inl Or.inr⟩

instance : IsTrans (String × Nat) freqGe :=
  ⟨fun _ _ _ h1 h2 => le_trans h2 h1⟩

/-- `get_author_keywords`: accumulate a word-frequency counter over all
papers' titles and venues, then `most_common(20)` (a stable descending sort
by count, truncated to 20).  Entries model the `{'keyword': w,
'frequency': c}` dicts as pairs. -/
def get_author_keywords (semantic_data : List RawRecord) : List (String × Nat) :=
  ((semantic_data.foldl
      (fun m author =>
        (author.papers.getD []).foldl
          (fun m p => (keywordFilter (paperTokens p)).foldl counterUpdate m) m)
      []).insertionSort freqGe).take 20

example :
    get_author_keywords
      [⟨none, none, some [⟨some "Deep deep learning", some "the learning venue", none⟩]⟩] =
      [("deep", 2), ("learning", 2), ("venue", 1)] := by decide

/-- C8: for every input, the keyword list of `get_author_keywords` has length
at most 20 and is sorted non-increasing by frequency; the list is built by
lowercase whitespace tokenization of each paper title and venue, keeping
words longer than 3 characters outside the stopword set (see
`paperTokens`, `keywordFilter`, `stopWords`). -/
theorem c8_keywords_top20_sorted :
    ∀ semantic_data : List RawRecord,
      (get_author_keywords semantic_data).length ≤ 20
      ∧ (get_author_keywords semantic_data).Pairwise freqGe := by
  intro d
  rw [get_author_keywords]
  constructor
  · rw [List.length_take]
    exact min_le_left _ _
  · exact (List.sorted_insertionSort freqGe _).sublist (List.take_sublist _ _)

/-! ### `get_coauthors` (src/search.py lines 239-275) and the server tool
`get_coauthors` (src/server.py lines 17-61) -/

/-- One element of the final co-author list
(`{'name': ..., 'collaborations': ..., 'source': ...}`). -/
structure CoauthorOut where
  name : String
  collaborations : Nat
  source : String
deriving Repr, DecidableEq

/-- Sort key of `coauthors.sort(key=lambda x: x['collaborations'],
reverse=True)`: non-increasing collaborations, stable. -/
def collabGe (a b : CoauthorOut) : Prop := b.collaborations ≤ a.collaborations

instance : DecidableRel collabGe := fun a b => Nat.decLe b.collaborations a.collaborations

instance : IsTotal CoauthorOut collabGe :=
  ⟨fun a b => (Nat.le_total b.collaborations a.collaborations).elim Or.inl Or.inr⟩

instance : IsTrans CoauthorOut collabGe :=
  ⟨fun _ _ _ h1 h2 => le_trans h2 h1⟩

/-- The filtering in `get_coauthors`: a gathered adapter result is kept only
when it is not an exception and non-empty
(`if not isinstance(result, Exception) and result`). -/
def keepSource (src : String × Except String (List RawRecord)) :
    Option (String × List RawRecord) :=
  match src.2 with
  | Except.error _ => none
  | Except.ok l => if l.isEmpty then none else some (src.1, l)

/-- `get_coauthors` (engine, cache-miss path), parameterized by the outcomes
of the three adapter fan-out tasks. -/
def get_coauthors_engine (ss oa cr : Except String (List RawRecord)) : List CoauthorOut :=
  (((merge_author_data
      (([("semantic_scholar", ss), ("openalex", oa), ("crossref", cr)]).filterMap
        keepSource)).coauthors.map
    (fun q => ⟨q.2.name, q.2.collaborations, q.2.source⟩)).insertionSort collabGe)

/-- The dictionary returned by the server tool `get_coauthors`; absent keys of
the failure envelope are `none`. -/
structure CoauthorToolResult where
  success : Bool
  author : Option String
  institution : Option String
  total_coauthors : Option Nat
  coauthors : List CoauthorOut
  error : Option String
deriving Repr, DecidableEq

/-- The server tool `get_coauthors`, parameterized by the engine call outcome
(`Except.error` models an exception escaping the engine call). -/
def get_coauthors_tool (name surname : String) (institution : Option String)
    (engine_result : Except String (List CoauthorOut)) : CoauthorToolResult :=
  match engine_result with
  | Except.ok cs => ⟨true, some (name ++ " " ++ surname), institution, some cs.length, cs, none⟩
  | Except.error e => ⟨false, none, none, none, [], some e⟩

/-- C7: when every adapter in the fan-out fails or returns an empty list, the
co-author pipeline returns the success envelope with zero co-authors and an
empty list — not an error envelope. -/
theorem c7_all_sources_empty_success :
    ∀ (name surname : String) (institution : Option String)
      (ss oa cr : Except String (List RawRecord)),
      (ss = Except.ok [] ∨ ∃ e, ss = Except.error e) →
      (oa = Except.ok [] ∨ ∃ e, oa = Except.error e) →
      (cr = Except.ok [] ∨ ∃ e, cr = Except.error e) →
      get_coauthors_tool name surname institution
          (Except.ok (get_coauthors_engine ss oa cr)) =
        ⟨true, some (name ++ " " ++ surname), institution, some 0, [], none⟩ := by
  intro n s i ss oa cr hss hoa hcr
  have hempty : get_coauthors_engine ss oa cr = [] := by
    rcases hss with h | ⟨e, h⟩ <;> rcases hoa with h2 | ⟨e2, h2⟩ <;>
      rcases hcr with h3 | ⟨e3, h3⟩ <;> subst h <;> subst h2 <;> subst h3 <;> rfl
  rw [hempty]
  rfl

/-- C7 witness: two failed adapters and one empty adapter produce the success
envelope with zero co-authors. -/
theorem c7_witness :
    get_coauthors_tool "Jane" "Doe" none
        (Except.ok (get_coauthors_engine
          (Except.error "timeout") (Except.ok []) (Except.error "boom"))) =
      ⟨true, some ("Jane" ++ " " ++ "Doe"), none, some 0, [], none⟩ :=
  c7_all_sources_empty_success "Jane" "Doe" none _ _ _
    (Or.inr ⟨"timeout", rfl⟩) (Or.inl rfl) (Or.inr ⟨"boom", rfl⟩)

/-! ### `_extract_keywords_from_profile` (src/search.py lines 412-477)

The fetched and parsed profile page is modelled by the data the function
inspects: the HTTP status, the link texts inside the interests container
found by the primary selector (`div#gsc_prf_int`) when present, those found
by the secondary selector (`div.gsc_prf_il`) when present, and the titles of
the publications listed on the page (which the function never reads). -/

/-- Python `str.strip()` (whitespace at both ends). -/
def pyStrip (s : String) : String :=
  String.mk (((s.data.dropWhile isPySpace).reverse.dropWhile isPySpace).reverse)

structure ScholarProfilePage where
  status : Nat
  interests_primary : Option (List String)
  interests_secondary : Option (List String)
  publication_titles : List String
deriving Repr, DecidableEq

/-- `[link.get_text().strip() for link in keyword_links if
link.get_text().strip()]`. -/
def strippedNonempty (links : List String) : List String :=
  links.filterMap (fun t => if pyStrip t = "" then none else some (pyStrip t))

/-- `_extract_keywords_from_profile` on an already-fetched page. -/
def extract_keywords_from_profile (page : ScholarProfilePage) :
    Except String (List String) :=
  if page.status ≠ 200 then
    Except.error ("Profile page failed with status " ++ toString page.status)
  else
    match page.interests_primary with
    | some links => Except.ok (strippedNonempty links)
    | none =>
      match page.interests_secondary with
      | some links => Except.ok (strippedNonempty links)
      | none => Except.ok []

/-- The publication-title fallback the spec claims for the profile step,
following the spec's words (first 10 titles, stopword-filtered word-frequency
count over alphabetic tokens of length at least 4).  The source function has
no such fallback; this definition exists only to compare the claim against
`extract_keywords_from_profile`. -/
def specTitleKeywordFallback (titles : List String) : List (String × Nat) :=
  (((titles.take 10).map pyLowerSplit).flatten.filter
      (fun w => 4 ≤ w.length && w.data.all Char.isAlpha && !(stopWords.contains w))).foldl
    counterUpdate []

/-- C5 counterexample: a 200-status page where neither the primary nor the
secondary selector finds an interests container, but whose publication list
has a title.  The source returns an empty keyword list, while the fallback
described by the claim would produce keywords from the title. -/
theorem c5_counterexample :
    extract_keywords_from_profile ⟨200, none, none, ["Deep Learning Methods"]⟩ =
      Except.ok []
    ∧ specTitleKeywordFallback ["Deep Learning Methods"] =
      [("deep", 1), ("learning", 1), ("methods", 1)] := by
  exact ⟨rfl, by decide⟩

/-- C5 (amended): when the interests container is found by neither the
primary nor the secondary selector, the profile step returns an empty keyword
list; it does not fall back to the publication titles. -/
theorem c5_amended_no_title_fallback :
    ∀ page : ScholarProfilePage, page.status = 200 →
      page.interests_primary = none → page.interests_secondary = none →
      extract_keywords_from_profile page = Except.ok [] := by
  intro p h200 h1 h2
  rw [extract_keywords_from_profile, if_neg (by simp [h200]), h1, h2]

/-- C5 witness: the amended theorem at a concrete page with both selectors
missing. -/
theorem c5_amended_witness :
    extract_keywords_from_profile ⟨200, none, none, ["Graph Algorithms"]⟩ =
      Except.ok [] :=
  c5_amended_no_title_fallback ⟨200, none, none, ["Graph Algorithms"]⟩ rfl rfl rfl

/-! ### `get_author_keywords_from_scholar` (src/search.py lines 308-338)

The operation is modelled on its cache-miss path, parameterized by the
outcomes of its three effectful collaborators: the profile-search step
(`_search_author_profile`), the profile-extraction step
(`_extract_keywords_from_profile` applied to the fetched page), and the
fallback `get_author_keywords` call.  An `Except.error` models a raised
exception; the Lean function is total, so no failure path escapes. -/

/-- The fallback path: on a raised fallback call return `[]`; on a nonempty
fallback list extract the keyword field of each entry and keep the first 10;
on an empty fallback list return `[]`. -/
def fallback_scholar_keywords : Except String (List (String × Nat)) → List String
  | Except.error _ => []
  | Except.ok ks => if ks.isEmpty then [] else (ks.map Prod.fst).take 10

/-- `get_author_keywords_from_scholar` (cache-miss path). -/
def get_author_keywords_from_scholar (step1 : Except String String)
    (step2 : String → Except String (List String))
    (fallback : Except String (List (String × Nat))) : List String :=
  match step1 with
  | Except.error _ => fallback_scholar_keywords fallback
  | Except.ok url =>
    match step2 url with
    | Except.error _ => fallback_scholar_keywords fallback
    | Except.ok ks => ks

/-- C6: when either scraping step fails, `get_author_keywords_from_scholar`
returns the fallback result instead of raising: the keyword fields of the
fallback entries truncated to the first 10 when the fallback yields a
nonempty list, and the empty list when the fallback raises or yields nothing;
the result never exceeds 10 entries. -/
theorem c6_scholar_keywords_fallback :
    ∀ (step1 : Except String String) (step2 : String → Except String (List String))
      (fb : Except String (List (String × Nat))),
      ((∃ e, step1 = Except.error e) ∨
        (∃ u e, step1 = Except.ok u ∧ step2 u = Except.error e)) →
      get_author_keywords_from_scholar step1 step2 fb = fallback_scholar_keywords fb
      ∧ (get_author_keywords_from_scholar step1 step2 fb).length ≤ 10
      ∧ (∀ ks, fb = Except.ok ks → ks.isEmpty = false →
          get_author_keywords_from_scholar step1 step2 fb = (ks.map Prod.fst).take 10)
      ∧ ((fb = Except.ok [] ∨ ∃ er, fb = Except.error er) →
          get_author_keywords_from_scholar step1 step2 fb = []) := by
  intro s1 s2 fb hfail
  have hmain : get_author_keywords_from_scholar s1 s2 fb = fallback_scholar_keywords fb := by
    rcases hfail with ⟨e, h⟩ | ⟨u, e, hu, he⟩
    · rw [h]
      rfl
    · rw [hu]
      simp only [get_author_keywords_from_scholar, he]
  refine ⟨hmain, ?_, ?_, ?_⟩
  · rw [hmain]
    match fb with
    | Except.error e => simp [fallback_scholar_keywords]
    | Except.ok ks =>
      rw [fallback_scholar_keywords]
      by_cases h : ks.isEmpty
      · rw [if_pos h]
        simp
      · rw [if_neg h, List.length_take]
        exact min_le_left _ _
  · intro ks hks hne
    rw [hmain, hks, fallback_scholar_keywords, hne]
    simp
  · intro hempty
    rw [hmain]
    rcases hempty with h | ⟨er, h⟩ <;> rw [h] <;> rfl

/-- C6 witness: the theorem at a failed search step with a nonempty fallback,
discharging the hypotheses. -/
theorem c6_scholar_keywords_witness :
    get_author_keywords_from_scholar (Except.error "no profile found")
        (fun _ => Except.error "unused")
        (Except.ok [("machine", 3), ("learning", 2)]) =
      ([("machine", 3), ("learning", 2)].map Prod.fst).take 10
    ∧ (get_author_keywords_from_scholar (Except.error "no profile found")
        (fun _ => Except.error "unused")
        (Except.ok [("machine", 3), ("learning", 2)])).length ≤ 10 :=
  have h := c6_scholar_keywords_fallback (Except.error "no profile found")
    (fun _ => Except.error "unused") (Except.ok [("machine", 3), ("learning", 2)])
    (Or.inl ⟨"no profile found", rfl⟩)
  ⟨h.2.2.1 [("machine", 3), ("learning", 2)] rfl rfl, h.2.1⟩

/-! ### Second-degree network -/

/-- The methods defined on the class `AuthorSearchEngine` in src/search.py.
`get_second_degree_network` is not among them. -/
def authorSearchEngineMethods : List String :=
  ["__init__", "__aenter__", "__aexit__", "_get_cache_key", "_rate_limit_check",
   "_make_request", "_search_semantic_scholar", "_search_openalex",
   "_search_crossref", "_search_arxiv", "_normalize_author_name",
   "_extract_coauthors_from_semantic_scholar", "_extract_coauthors_from_openalex",
   "_merge_author_data", "get_coauthors", "get_author_keywords",
   "get_author_keywords_from_scholar", "_search_author_profile",
   "_extract_keywords_from_profile", "_scrape_google_scholar",
   "_scrape_scholar_profile"]

/-- One value of the network mapping: the first-degree co-author and the
second-degree co-authors attributed to it. -/
structure SecondDegreeEntry where
  first_degree : CoauthorOut
  second_degree : List CoauthorOut
deriving Repr, DecidableEq

/-- The dictionary returned by the server tool `get_second_degree_network`;
absent keys of the failure envelope are `none`. -/
structure NetworkToolResult where
  success : Bool
  author : Option String
  institution : Option String
  network_size : Option Nat
  first_degree_count : Option Nat
  network : List (String × SecondDegreeEntry)
  error : Option String
deriving Repr, DecidableEq

/-- The server tool `get_second_degree_network` (src/server.py lines
106-149): it calls `search_engine.get_second_degree_network(...)`.  Python
attribute lookup succeeds only when the attribute is defined on the object;
the hypothetical implementation `impl` is invoked only in that case.
Otherwise an `AttributeError` is raised and caught by the tool's handler,
which returns the failure envelope with an empty network. -/
def get_second_degree_network_tool
    (impl : String → String → Option String → Nat → List (String × SecondDegreeEntry))
    (name surname : String) (institution : Option String) (max_connections : Nat) :
    NetworkToolResult :=
  if authorSearchEngineMethods.contains "get_second_degree_network" then
    ⟨true, some (name ++ " " ++ surname), institution,
     some ((impl name surname institution max_connections).map
        (fun p => p.2.second_degree.length)).sum,
     some (impl name surname institution max_connections).length,
     impl name surname institution max_connections, none⟩
  else
    ⟨false, none, none, none, none, [],
     some "AttributeError: AuthorSearchEngine object has no attribute get_second_degree_network"⟩

/-- C4: whatever engine implementation would be plugged in and whatever the
inputs, the `get_second_degree_network` tool returns the failure envelope
with an empty network, because the engine class defines no
`get_second_degree_network` method (see `authorSearchEngineMethods`) and the
tool's own handler catches the resulting `AttributeError`. -/
theorem c4_second_degree_tool_always_fails :
    ∀ (impl : String → String → Option String → Nat → List (String × SecondDegreeEntry))
      (name surname : String) (institution : Option String) (max_connections : Nat),
      get_second_degree_network_tool impl name surname institution max_connections =
        ⟨false, none, none, none, none, [],
         some "AttributeError: AuthorSearchEngine object has no attribute get_second_degree_network"⟩ := by
  intro impl name surname institution max_connections
  rw [get_second_degree_network_tool, if_neg (by decide)]

/-- Modelled from the spec: `AuthorSearchEngine.get_second_degree_network`
does not exist in src/search.py (src/server.py merely calls it), so the
engine operation is modelled from spec §4.7: take the first-degree co-authors
of the root query (already obtained by the root co-author lookup), split each
display name into (first token, remaining tokens) and look up that
co-author's co-authors, accumulating second-degree entries until the running
total reaches `maxConnections`; stop issuing further lookups once the total
is reached, keeping the truncated partial result of the co-author in
progress.  Returns the network (keyed by the first-degree co-author's
normalized name) together with the number of non-root co-author lookups
issued. -/
def buildSecondDegree (lookup : String → String → List CoauthorOut)
    (maxConnections : Nat) :
    List CoauthorOut → Nat → List (String × SecondDegreeEntry) × Nat
  | [], _ => ([], 0)
  | c :: rest, total =>
    if maxConnections ≤ total then ([], 0)
    else
      ((normalize_author_name c.name,
        ⟨c, (lookup (String.mk ((words c.name.data).headD []))
              (String.mk (joinWords (words c.name.data).tail))).take
            (maxConnections - total)⟩) ::
        (buildSecondDegree lookup maxConnections rest
          (total + ((lookup (String.mk ((words c.name.data).headD []))
              (String.mk (joinWords (words c.name.data).tail))).take
            (maxConnections - total)).length)).1,
       (buildSecondDegree lookup maxConnections rest
          (total + ((lookup (String.mk ((words c.name.data).headD []))
              (String.mk (joinWords (words c.name.data).tail))).take
            (maxConnections - total)).length)).2 + 1)

/-- Modelled from the spec: the engine operation `get_second_degree_network`
(spec §4.7) applied to the root query's first-degree co-authors. -/
def get_second_degree_network (lookup : String → String → List CoauthorOut)
    (root_coauthors : List CoauthorOut) (max_connections : Nat) :
    List (String × SecondDegreeEntry) × Nat :=
  buildSecondDegree lookup max_connections root_coauthors 0

/-- Total number of second-degree entries across the network. -/
def networkSize (net : List (String × SecondDegreeEntry)) : Nat :=
  (net.map (fun p => p.2.second_degree.length)).sum

theorem buildSecondDegree_size_le (lookup : String → String → List CoauthorOut)
    (maxConnections : Nat) :
    ∀ (cs : List CoauthorOut) (total : Nat), total ≤ maxConnections →
      networkSize (buildSecondDegree lookup maxConnections cs total).1 ≤
        maxConnections - total := by
  intro cs
  induction cs with
  | nil => intro total _; simp [buildSecondDegree, networkSize]
  | cons c rest ih =>
    intro total htot
    rw [buildSecondDegree]
    by_cases hstop : maxConnections ≤ total
    · rw [if_pos hstop]
      simp [networkSize]
    · rw [if_neg hstop]
      simp only [networkSize, List.map_cons, List.sum_cons]
      have hkept :
          ((lookup (String.mk ((words c.name.data).headD []))
              (String.mk (joinWords (words c.name.data).tail))).take
            (maxConnections - total)).length ≤ maxConnections - total := by
        rw [List.length_take]
        exact min_le_left _ _
      have hrec := ih
        (total + ((lookup (String.mk ((words c.name.data).headD []))
              (String.mk (joinWords (words c.name.data).tail))).take
            (maxConnections - total)).length)
        (by omega)
      simp only [networkSize] at hrec
      omega

/-- C3 (spec-modelled): the second-degree network operation never returns
more second-degree entries in total than `max_connections`, and with
`max_connections = 0` returns an empty network having issued no co-author
lookups beyond the root query's. -/
theorem c3_second_degree_bounded :
    ∀ (lookup : String → String → List CoauthorOut)
      (root_coauthors : List CoauthorOut) (max_connections : Nat),
      networkSize (get_second_degree_network lookup root_coauthors max_connections).1 ≤
        max_connections
      ∧ (max_connections = 0 →
          (get_second_degree_network lookup root_coauthors 0).1 = []
          ∧ (get_second_degree_network lookup root_coauthors 0).2 = 0) := by
  intro lookup cs maxc
  constructor
  · have h := buildSecondDegree_size_le lookup maxc cs 0 (Nat.zero_le _)
    rw [get_second_degree_network]
    omega
  · intro hzero
    rw [get_second_degree_network]
    cases cs with
    | nil => exact ⟨rfl, rfl⟩
    | cons c rest =>
      rw [buildSecondDegree, if_pos (Nat.le_refl 0)]
      exact ⟨rfl, rfl⟩

/-- C3 witness: a concrete lookup returning three co-authors per query; with
max_connections 2 the network holds 2 entries in total, and with
max_connections 0 it is empty with zero recursive lookups. -/
theorem c3_second_degree_witness :
    networkSize (get_second_degree_network
        (fun _ _ => [⟨"A B", 3, "semantic_scholar"⟩, ⟨"C D", 2, "semantic_scholar"⟩,
                     ⟨"E F", 1, "semantic_scholar"⟩])
        [⟨"John Smith", 2, "semantic_scholar"⟩, ⟨"Amy Lee", 1, "semantic_scholar"⟩]
        2).1 ≤ 2
    ∧ (get_second_degree_network
        (fun _ _ => [⟨"A B", 3, "semantic_scholar"⟩])
        [⟨"John Smith", 2, "semantic_scholar"⟩] 0).1 = []
    ∧ (get_second_degree_network
        (fun _ _ => [⟨"A B", 3, "semantic_scholar"⟩])
        [⟨"John Smith", 2, "semantic_scholar"⟩] 0).2 = 0 :=
  have h1 := c3_second_degree_bounded
    (fun _ _ => [⟨"A B", 3, "semantic_scholar"⟩, ⟨"C D", 2, "semantic_scholar"⟩,
                 ⟨"E F", 1, "semantic_scholar"⟩])
    [⟨"John Smith", 2, "semantic_scholar"⟩, ⟨"Amy Lee", 1, "semantic_scholar"⟩] 2
  have h2 := c3_second_degree_bounded
    (fun _ _ => [⟨"A B", 3, "semantic_scholar"⟩])
    [⟨"John Smith", 2, "semantic_scholar"⟩] 0
  ⟨h1.1, (h2.2 rfl).1, (h2.2 rfl).2⟩

end AuthorProfile
